import Mathlib

/-!
Verification of the `typescript-react-intl` message extractor (`src/index.ts`).

The extractor walks a parsed TypeScript/TSX syntax tree and collects react-intl
message descriptors from three authoring patterns: `<FormattedMessage …/>`-style
markup elements, `defineMessages({...})` bulk maps, and `formatMessage({...})`
resolution calls.  The parser itself is an external collaborator; the embedding
below models the syntax tree as an inductive type whose constructors are exactly
the node kinds the extractor distinguishes, with `Node.other` standing for every
remaining node kind (keeping only the child list that `ts.forEachChild` would
visit).  Every function of `src/index.ts` is translated one-to-one.
-/

namespace TsReactIntl

/-- A react-intl message descriptor (`interface Message`, src/index.ts lines 20-24). -/
structure Message where
  id : String
  defaultMessage : String
  description : Option String
deriving Repr, DecidableEq

/-- The accumulator `Partial<Message>` built while scanning one candidate node:
each recognized field is either absent or holds a string. -/
structure MessageDraft where
  id : Option String := none
  defaultMessage : Option String := none
  description : Option String := none
deriving Repr, DecidableEq

/-- The syntax-tree node kinds `src/index.ts` distinguishes.  Children are kept in
the order `ts.forEachChild` visits them (source order).  `other` models every node
kind the extractor never inspects beyond traversing its children (blocks,
statements, functions, a paired JSX element wrapping its opening tag, …). -/
inductive Node where
  | identifier (text : String)
  | stringLiteral (text : String)
  | noSubstitutionTemplateLiteral (text : String)
  | numericLiteral (text : String)
  | callExpression (expression : Node) (arguments : List Node)
  | variableDeclaration (declName : Node) (declInit : Option Node)
  | objectLiteralExpression (properties : List Node)
  | propertyAssignment (propName : Node) (propInit : Node)
  | shorthandPropertyAssignment (propName : Node)
  | jsxOpeningLikeElement (tagName : Node) (attributes : List Node)
  | jsxAttribute (attrName : String) (attrInit : Option Node)
  | jsxSpreadAttribute (expression : Node)
  | jsxExpression (expression : Option Node)
  | other (childList : List Node)
deriving Repr

/-- `ts.isIdentifier`. -/
def isIdentifier : Node → Bool
  | .identifier _ => true
  | _ => false

/-- `ts.isStringLiteral`. -/
def isStringLiteral : Node → Bool
  | .stringLiteral _ => true
  | _ => false

/-- `ts.isNoSubstitutionTemplateLiteral`. -/
def isNoSubstitutionTemplateLiteral : Node → Bool
  | .noSubstitutionTemplateLiteral _ => true
  | _ => false

/-- `ts.isLiteralExpression`: string, template-with-no-substitution and numeric
literals are the literal-expression kinds present in this embedding. -/
def isLiteralExpression : Node → Bool
  | .stringLiteral _ => true
  | .noSubstitutionTemplateLiteral _ => true
  | .numericLiteral _ => true
  | _ => false

/-- `ts.isObjectLiteralExpression`. -/
def isObjectLiteralExpression : Node → Bool
  | .objectLiteralExpression _ => true
  | _ => false

/-- `ts.isVariableDeclaration`. -/
def isVariableDeclaration : Node → Bool
  | .variableDeclaration _ _ => true
  | _ => false

/-- `ts.isCallExpression`. -/
def isCallExpression : Node → Bool
  | .callExpression _ _ => true
  | _ => false

/-- `ts.isJsxOpeningLikeElement`. -/
def isJsxOpeningLikeElement : Node → Bool
  | .jsxOpeningLikeElement _ _ => true
  | _ => false

/-- The `.text` field of identifiers and literal expressions (empty for node
kinds that carry no text, which the extractor never reads). -/
def Node.text : Node → String
  | .identifier t => t
  | .stringLiteral t => t
  | .noSubstitutionTemplateLiteral t => t
  | .numericLiteral t => t
  | _ => ""

/-- The structural children `ts.forEachChild` visits, in source order. -/
def Node.children : Node → List Node
  | .identifier _ => []
  | .stringLiteral _ => []
  | .noSubstitutionTemplateLiteral _ => []
  | .numericLiteral _ => []
  | .callExpression e args => e :: args
  | .variableDeclaration nm declInit => nm :: declInit.toList
  | .objectLiteralExpression props => props
  | .propertyAssignment nm propInit => [nm, propInit]
  | .shorthandPropertyAssignment nm => [nm]
  | .jsxOpeningLikeElement tn attrs => tn :: attrs
  | .jsxAttribute _ attrInit => attrInit.toList
  | .jsxSpreadAttribute e => [e]
  | .jsxExpression e => e.toList
  | .other cs => cs

theorem children_sizeOf {c n : Node} (h : c ∈ n.children) : sizeOf c < sizeOf n := by
  cases n <;> simp only [Node.children] at h
  case identifier t => cases h
  case stringLiteral t => cases h
  case noSubstitutionTemplateLiteral t => cases h
  case numericLiteral t => cases h
  case callExpression e args =>
    rcases List.mem_cons.mp h with rfl | h
    · simp; omega
    · have := List.sizeOf_lt_of_mem h; simp; omega
  case variableDeclaration nm declInit =>
    rcases List.mem_cons.mp h with rfl | h
    · simp; omega
    · cases declInit with
      | none => cases h
      | some x =>
        rcases List.mem_singleton.mp (by simpa using h) with rfl
        simp; omega
  case objectLiteralExpression props =>
    have := List.sizeOf_lt_of_mem h; simp; omega
  case propertyAssignment nm propInit =>
    rcases List.mem_cons.mp h with rfl | h
    · simp; omega
    · rcases List.mem_singleton.mp h with rfl; simp
  case shorthandPropertyAssignment nm =>
    rcases List.mem_singleton.mp h with rfl; simp
  case jsxOpeningLikeElement tn attrs =>
    rcases List.mem_cons.mp h with rfl | h
    · simp; omega
    · have := List.sizeOf_lt_of_mem h; simp; omega
  case jsxAttribute nm attrInit =>
    cases attrInit with
    | none => cases h
    | some x =>
      rcases List.mem_singleton.mp (by simpa using h) with rfl
      simp; omega
  case jsxSpreadAttribute e =>
    rcases List.mem_singleton.mp h with rfl; simp
  case jsxExpression e =>
    cases e with
    | none => cases h
    | some x =>
      rcases List.mem_singleton.mp (by simpa using h) with rfl
      simp; omega
  case other cs =>
    have := List.sizeOf_lt_of_mem h; simp; omega

/-- Document order: the pre-order listing of all nodes reachable from `n`
(each node before its children, children in source order). -/
def preorder (n : Node) : List Node :=
  n :: (n.children.attach.map (fun c => preorder c.val)).flatten
termination_by sizeOf n
decreasing_by exact children_sizeOf c.property

/-- `isMethodCall` (lines 3-15): is `el` a variable declaration whose initializer
is a call of the plain identifier `methodName`? -/
def isMethodCall (el : Node) (methodName : String) : Bool :=
  match el with
  | .variableDeclaration _ (some declInit) =>
      match declInit with
      | .callExpression e _ => isIdentifier e && e.text == methodName
      | _ => false
  | _ => false

/-- `copyIfMessageKey` (lines 35-49): `target[key] = value`, but only when `key`
is one of the three legal `Message` keys. -/
def copyIfMessageKey (target : MessageDraft) (key : String) (value : String) :
    MessageDraft :=
  if key = "defaultMessage" then { target with defaultMessage := some value }
  else if key = "description" then { target with description := some value }
  else if key = "id" then { target with id := some value }
  else target

/-- `isValidMessage` (lines 52-54): are the required keys `id` and
`defaultMessage` present? -/
def isValidMessage (obj : MessageDraft) : Bool :=
  obj.id.isSome && obj.defaultMessage.isSome

/-- A valid draft as a `Message`; `none` exactly when `isValidMessage` fails.
TypeScript narrows `Partial<Message>` to `Message` in place (`obj is Message`);
the embedding makes that narrowing an explicit conversion. -/
def MessageDraft.toMessage (obj : MessageDraft) : Option Message :=
  match obj.id, obj.defaultMessage with
  | some i, some dm => some { id := i, defaultMessage := dm, description := obj.description }
  | _, _ => none

/-- The body of the inner `forEach` of `extractMessagesForDefineMessages`
(lines 67-82): copy an inner property into the draft when its name is an
identifier or literal and its value is a string literal or no-substitution
template literal. -/
def defineMessagesInner (msg : MessageDraft) (ip : Node) : MessageDraft :=
  match ip with
  | .propertyAssignment nm propInit =>
      if isIdentifier nm || isLiteralExpression nm then
        if isStringLiteral propInit || isNoSubstitutionTemplateLiteral propInit then
          copyIfMessageKey msg nm.text propInit.text
        else msg
      else msg
  | _ => msg

/-- The body of the outer `forEach` of `extractMessagesForDefineMessages`
(lines 60-85): when the property's value is an object literal, build a fresh
draft from its inner properties and push it when valid. -/
def defineMessagesProp (messages : List Message) (p : Node) : List Message :=
  match p with
  | .propertyAssignment _ propInit =>
      match propInit with
      | .objectLiteralExpression iprops =>
          let msg := iprops.foldl defineMessagesInner {}
          match msg.toMessage with
          | some m => messages ++ [m]
          | none => messages
      | _ => messages
  | _ => messages

/-- `extractMessagesForDefineMessages` (lines 56-87): one draft per property of
the outer object literal whose value is itself an object literal; the draft is
pushed when valid. -/
def extractMessagesForDefineMessages (objLiteral : Node) : List Message :=
  match objLiteral with
  | .objectLiteralExpression props => props.foldl defineMessagesProp []
  | _ => []

/-- The body of the `forEach` of `extractMessagesForFormatMessage`
(lines 93-102): copy a top-level property into the draft when its name is an
identifier or literal and its value is a plain string literal. -/
def formatMessageStep (msg : MessageDraft) (p : Node) : MessageDraft :=
  match p with
  | .propertyAssignment nm propInit =>
      if (isIdentifier nm || isLiteralExpression nm) && isStringLiteral propInit then
        copyIfMessageKey msg nm.text propInit.text
      else msg
  | _ => msg

/-- `extractMessagesForFormatMessage` (lines 89-104): one draft for the whole
object literal; one message when valid, none otherwise. -/
def extractMessagesForFormatMessage (objLiteral : Node) : List Message :=
  match objLiteral with
  | .objectLiteralExpression props =>
      let msg := props.foldl formatMessageStep {}
      match msg.toMessage with
      | some m => [m]
      | none => []
  | _ => []

/-- `extractMessagesForNode` (lines 106-121): apply `extractMessages` to every
outermost object literal of the subtree (traversal does not descend into a
collected object literal). -/
def extractMessagesForNode (node : Node) (extractMessages : Node → List Message) :
    List Message :=
  if isObjectLiteralExpression node then extractMessages node
  else (node.children.attach.map
    (fun c => extractMessagesForNode c.val extractMessages)).flatten
termination_by sizeOf node
decreasing_by exact children_sizeOf c.property

/-- `forAllVarDecls` (lines 123-132), with the callback replaced by returning the
list of visited declarations in visit order: the traversal stops at a variable
declaration and does not descend into its children. -/
def forAllVarDecls (node : Node) : List Node :=
  if isVariableDeclaration node then [node]
  else (node.children.attach.map (fun c => forAllVarDecls c.val)).flatten
termination_by sizeOf node
decreasing_by exact children_sizeOf c.property

/-- The match test of `findJsxOpeningLikeElementsWithName` (lines 141-146): a JSX
opening-like element whose tag name is a plain identifier equal to `tagName`. -/
def jsxMatches (tagName : String) : Node → Bool
  | .jsxOpeningLikeElement tn _ => isIdentifier tn && tn.text == tagName
  | _ => false

/-- `findJsxOpeningLikeElementsWithName` (lines 134-152): collect, in document
order, every matching element; traversal continues into matched elements too. -/
def findJsxOpeningLikeElementsWithName (node : Node) (tagName : String) :
    List Node :=
  (if jsxMatches tagName node then [node] else []) ++
    (node.children.attach.map
      (fun c => findJsxOpeningLikeElementsWithName c.val tagName)).flatten
termination_by sizeOf node
decreasing_by exact children_sizeOf c.property

/-- The body of the `forAllVarDecls` callback of `findMethodCallsWithName`
(lines 160-172): when the declaration matches and its call has at least one
argument, concatenate the messages extracted from the first argument. -/
def findMethodCallsStep (methodName : String)
    (extractMessages : Node → List Message) (messages : List Message)
    (decl : Node) : List Message :=
  if isMethodCall decl methodName then
    match decl with
    | .variableDeclaration _ (some declInit) =>
        match declInit with
        | .callExpression _ args =>
            match args with
            | [] => messages
            | nodeProps :: _ =>
                messages ++ extractMessagesForNode nodeProps extractMessages
        | _ => messages
    | _ => messages
  else messages

/-- `findMethodCallsWithName` (lines 154-174): for every visited variable
declaration that matches `methodName` and whose call has at least one argument,
extract messages from the first argument. -/
def findMethodCallsWithName (sourceFile : Node) (methodName : String)
    (extractMessages : Node → List Message) : List Message :=
  (forAllVarDecls sourceFile).foldl (findMethodCallsStep methodName extractMessages) []

/-- The body of the attribute `forEach` of `getElementsMessages`
(lines 228-255): spread attributes, attributes without initializer and
attributes whose embedded expression is not a string literal or no-substitution
template literal are skipped; otherwise the attribute's text is copied. -/
def jsxAttrStep (msg : MessageDraft) (attr : Node) : MessageDraft :=
  match attr with
  | .jsxAttribute key (some attrInit) =>
      if isStringLiteral attrInit then
        copyIfMessageKey msg key attrInit.text
      else
        match attrInit with
        | .jsxExpression (some e) =>
            if isStringLiteral e || isNoSubstitutionTemplateLiteral e then
              copyIfMessageKey msg key e.text
            else msg
        | _ => msg
  | _ => msg

/-- The body of the element `map` of `getElementsMessages` (lines 225-257):
fold the attributes into a draft and keep it when valid
(`isValidMessage(msg) ? msg : null`). -/
def elementMessage (element : Node) : Option Message :=
  match element with
  | .jsxOpeningLikeElement _ attrs =>
      let msg := attrs.foldl jsxAttrStep {}
      msg.toMessage
  | _ => none

/-- `getElementsMessages` (lines 223-260): map each element to a validated
draft and drop the nulls (`.filter(notNull)` is modeled as `filterMap id`). -/
def getElementsMessages (elements : List Node) : List Message :=
  (elements.map elementMessage).filterMap id

/-- `Options` (lines 175-177). -/
structure Options where
  tagNames : List String

/-- `main` (lines 181-217), taking the already parsed source file (the parser is
an external collaborator): JSX descriptors for the default tag then each
caller-supplied tag, followed by `defineMessages` then `formatMessage`
descriptors. -/
def main (sourceFile : Node) (options : Options) : List Message :=
  let dm := findMethodCallsWithName sourceFile "defineMessages"
    extractMessagesForDefineMessages
  let fm := findMethodCallsWithName sourceFile "formatMessage"
    extractMessagesForFormatMessage
  let tagNames := ["FormattedMessage"] ++ options.tagNames
  let results := tagNames.foldl (fun results tagName =>
    results ++ getElementsMessages
      (findJsxOpeningLikeElementsWithName sourceFile tagName)) []
  results ++ dm ++ fm

/-! Analysis definitions: per-candidate summaries of the matchers, used to state
the claims.  Each is compared with the corresponding source function by a proved
characterization. -/

/-- The text a node contributes when it is a string literal or no-substitution
template literal. -/
def literalString : Node → Option String
  | .stringLiteral t => some t
  | .noSubstitutionTemplateLiteral t => some t
  | _ => none

/-- The texts of all string literals and no-substitution template literals
anywhere in `n` — the literal pool descriptor fields may be drawn from. -/
def literalTexts (n : Node) : List String :=
  (preorder n).filterMap literalString

/-- `copyIfMessageKey` on a (key, value) pair. -/
def copyPair (d : MessageDraft) (kv : String × String) : MessageDraft :=
  copyIfMessageKey d kv.1 kv.2

/-- The (key, text) entry an inner `defineMessages` property contributes, if any. -/
def dmEntry : Node → Option (String × String)
  | .propertyAssignment nm propInit =>
      if (isIdentifier nm || isLiteralExpression nm) &&
          (isStringLiteral propInit || isNoSubstitutionTemplateLiteral propInit) then
        some (nm.text, propInit.text)
      else none
  | _ => none

/-- The (key, text) entry a top-level `formatMessage` property contributes, if
any: only plain string literal values count. -/
def fmEntry : Node → Option (String × String)
  | .propertyAssignment nm propInit =>
      if (isIdentifier nm || isLiteralExpression nm) && isStringLiteral propInit then
        some (nm.text, propInit.text)
      else none
  | _ => none

/-- The (key, text) entry a JSX attribute contributes, if any: a string-literal
value, or an embedded expression holding a string literal or no-substitution
template literal. -/
def attrEntry : Node → Option (String × String)
  | .jsxAttribute key (some attrInit) =>
      if isStringLiteral attrInit then some (key, attrInit.text)
      else
        match attrInit with
        | .jsxExpression (some e) =>
            if isStringLiteral e || isNoSubstitutionTemplateLiteral e then
              some (key, e.text)
            else none
        | _ => none
  | _ => none

/-- The descriptor one outer `defineMessages` property yields, if any. -/
def dmProp : Node → Option Message
  | .propertyAssignment _ propInit =>
      match propInit with
      | .objectLiteralExpression iprops =>
          (iprops.foldl defineMessagesInner {}).toMessage
      | _ => none
  | _ => none


/-- The messages one visited variable declaration contributes in
`findMethodCallsWithName`: the valid descriptors inside the first argument of a
matching call, nothing otherwise. -/
def declMessages (methodName : String) (extractMessages : Node → List Message)
    (decl : Node) : List Message :=
  if isMethodCall decl methodName then
    match decl with
    | .variableDeclaration _ (some declInit) =>
        match declInit with
        | .callExpression _ args =>
            match args with
            | [] => []
            | nodeProps :: _ => extractMessagesForNode nodeProps extractMessages
        | _ => []
    | _ => []
  else []

/-- The outermost object literals of a subtree, in document order: exactly the
candidates `extractMessagesForNode` hands to its extractor (traversal stops at
a collected object literal). -/
def outerObjectLiterals (node : Node) : List Node :=
  if isObjectLiteralExpression node then [node]
  else (node.children.attach.map (fun c => outerObjectLiterals c.val)).flatten
termination_by sizeOf node
decreasing_by exact children_sizeOf c.property

/-- A draft field by key name, for stating per-key facts uniformly. -/
def getField (d : MessageDraft) (key : String) : Option String :=
  if key = "id" then d.id
  else if key = "defaultMessage" then d.defaultMessage
  else if key = "description" then d.description
  else none

/-- The values carried by the entries of a given key, in source order. -/
def keyValues (key : String) (l : List (String × String)) : List String :=
  l.filterMap (fun kv => if kv.1 = key then some kv.2 else none)

/-- The three field names a descriptor may carry. -/
def recognizedKey (key : String) : Prop :=
  key = "id" ∨ key = "defaultMessage" ∨ key = "description"

/-! Fuel-indexed mirrors of the recursive traversals.  They are structurally
recursive on the fuel, hence kernel-reducible, and proved equal to the
traversals whenever the fuel covers the node size; they let concrete trees be
evaluated by `rfl`/`decide`. -/

/-- Fuel mirror of `preorder`. -/
def preorderF : Nat → Node → List Node
  | 0, _ => []
  | f + 1, n => n :: (n.children.map (preorderF f)).flatten

/-- Fuel mirror of `forAllVarDecls`. -/
def forAllVarDeclsF : Nat → Node → List Node
  | 0, _ => []
  | f + 1, n =>
    if isVariableDeclaration n then [n]
    else (n.children.map (forAllVarDeclsF f)).flatten

/-- Fuel mirror of `findJsxOpeningLikeElementsWithName`. -/
def findJsxF : Nat → String → Node → List Node
  | 0, _, _ => []
  | f + 1, tagName, n =>
    (if jsxMatches tagName n then [n] else []) ++
      (n.children.map (findJsxF f tagName)).flatten

/-- Fuel mirror of `extractMessagesForNode`. -/
def extractNodeF : Nat → (Node → List Message) → Node → List Message
  | 0, _, _ => []
  | f + 1, ext, n =>
    if isObjectLiteralExpression n then ext n
    else (n.children.map (extractNodeF f ext)).flatten

/-- Fuel mirror of `declMessages`. -/
def declMessagesF (f : Nat) (methodName : String)
    (extractMessages : Node → List Message) (decl : Node) : List Message :=
  if isMethodCall decl methodName then
    match decl with
    | .variableDeclaration _ (some declInit) =>
        match declInit with
        | .callExpression _ args =>
            match args with
            | [] => []
            | nodeProps :: _ => extractNodeF f extractMessages nodeProps
        | _ => []
    | _ => []
  else []

/-- Fuel mirror of `findMethodCallsWithName` (through `findMethodCalls_eq`). -/
def findMethodCallsF (f : Nat) (sf : Node) (methodName : String)
    (extractMessages : Node → List Message) : List Message :=
  ((forAllVarDeclsF f sf).map (declMessagesF f methodName extractMessages)).flatten

/-- Fuel mirror of `main` (through `main_eq`). -/
def mainF (f : Nat) (sf : Node) (opts : Options) : List Message :=
  (("FormattedMessage" :: opts.tagNames).map
    (fun t => getElementsMessages (findJsxF f t sf))).flatten ++
  findMethodCallsF f sf "defineMessages" extractMessagesForDefineMessages ++
  findMethodCallsF f sf "formatMessage" extractMessagesForFormatMessage

/-- Fuel mirror of `literalTexts`. -/
def literalTextsF (f : Nat) (n : Node) : List String :=
  (preorderF f n).filterMap literalString

/-! Concrete example trees used to exercise the theorems. -/

/-- A `defineMessages({m: {id: "a.b", defaultMessage: "Hello"}})` argument. -/
def innerDefineMessagesArg : Node :=
  .objectLiteralExpression
    [.propertyAssignment (.identifier "m") (.objectLiteralExpression
      [.propertyAssignment (.identifier "id") (.stringLiteral "a.b"),
       .propertyAssignment (.identifier "defaultMessage")
         (.stringLiteral "Hello")])]

/-- `const b = defineMessages({m: {...}})`. -/
def innerDefineMessagesDecl : Node :=
  .variableDeclaration (.identifier "b")
    (some (.callExpression (.identifier "defineMessages")
      [innerDefineMessagesArg]))

/-- A file whose only `defineMessages` declaration sits inside the initializer
of an enclosing variable declaration (e.g. `const a = (() => { const b =
defineMessages({...}); })()`). -/
def nestedDeclTree : Node :=
  .other [.variableDeclaration (.identifier "a")
    (some (.other [innerDefineMessagesDecl]))]

/-- A file holding `const m = formatMessage({id: "", defaultMessage: "x"})`:
the `id` field is the empty string literal. -/
def emptyIdTree : Node :=
  .other [.variableDeclaration (.identifier "m")
    (some (.callExpression (.identifier "formatMessage")
      [.objectLiteralExpression
        [.propertyAssignment (.identifier "id") (.stringLiteral ""),
         .propertyAssignment (.identifier "defaultMessage")
           (.stringLiteral "x")]]))]

/-- A file holding `const m = formatMessage({id: "a.b", defaultMessage:
"Hello"})`. -/
def okCallTree : Node :=
  .other [.variableDeclaration (.identifier "m")
    (some (.callExpression (.identifier "formatMessage")
      [.objectLiteralExpression
        [.propertyAssignment (.identifier "id") (.stringLiteral "a.b"),
         .propertyAssignment (.identifier "defaultMessage")
           (.stringLiteral "Hello")]]))]

/-- A file holding `log(formatMessage({id: "a.b", defaultMessage: "Hello"}))`:
the resolution call is an argument of another call, not the initializer of a
variable declaration. -/
def bareCallTree : Node :=
  .other [.callExpression (.identifier "log")
    [.callExpression (.identifier "formatMessage")
      [.objectLiteralExpression
        [.propertyAssignment (.identifier "id") (.stringLiteral "a.b"),
         .propertyAssignment (.identifier "defaultMessage")
           (.stringLiteral "Hello")]]]]

/-! Helper lemmas. -/

/-- Strong induction over a node via its child list: the induction scheme every
traversal of the extractor follows. -/
theorem Node.strongInd (P : Node → Prop)
    (h : ∀ n : Node, (∀ c ∈ n.children, P c) → P n) (n : Node) : P n :=
  h n (fun c hc => Node.strongInd P h c)
termination_by sizeOf n
decreasing_by exact children_sizeOf hc

theorem preorder_def (n : Node) :
    preorder n = n :: (n.children.map preorder).flatten := by
  rw [preorder, List.attach_map_val]

theorem extractMessagesForNode_def (node : Node) (ext : Node → List Message) :
    extractMessagesForNode node ext =
      if isObjectLiteralExpression node then ext node
      else (node.children.map (fun c => extractMessagesForNode c ext)).flatten := by
  rw [extractMessagesForNode,
    List.attach_map_val node.children (fun c => extractMessagesForNode c ext)]

theorem forAllVarDecls_def (node : Node) :
    forAllVarDecls node =
      if isVariableDeclaration node then [node]
      else (node.children.map forAllVarDecls).flatten := by
  rw [forAllVarDecls, List.attach_map_val]

theorem findJsx_def (node : Node) (tagName : String) :
    findJsxOpeningLikeElementsWithName node tagName =
      (if jsxMatches tagName node then [node] else []) ++
        (node.children.map
          (fun c => findJsxOpeningLikeElementsWithName c tagName)).flatten := by
  rw [findJsxOpeningLikeElementsWithName, List.attach_map_val node.children
    (fun c => findJsxOpeningLikeElementsWithName c tagName)]

theorem copy_id (d : MessageDraft) (k v : String) :
    (copyIfMessageKey d k v).id = if k = "id" then some v else d.id := by
  unfold copyIfMessageKey
  split_ifs with h1 h2 h3 <;> simp_all

theorem copy_defaultMessage (d : MessageDraft) (k v : String) :
    (copyIfMessageKey d k v).defaultMessage =
      if k = "defaultMessage" then some v else d.defaultMessage := by
  unfold copyIfMessageKey
  split_ifs with h1 h2 h3 <;> simp_all

theorem copy_description (d : MessageDraft) (k v : String) :
    (copyIfMessageKey d k v).description =
      if k = "description" then some v else d.description := by
  unfold copyIfMessageKey
  split_ifs with h1 h2 h3 <;> simp_all

theorem copy_getField (d : MessageDraft) (k v key : String)
    (hk : recognizedKey key) :
    getField (copyIfMessageKey d k v) key =
      if k = key then some v else getField d key := by
  rcases hk with rfl | rfl | rfl <;>
    simp [getField, copy_id, copy_defaultMessage, copy_description]

theorem copy_unknown (d : MessageDraft) (k v : String) (hk : ¬ recognizedKey k) :
    copyIfMessageKey d k v = d := by
  unfold recognizedKey at hk
  push_neg at hk
  unfold copyIfMessageKey
  rw [if_neg hk.2.1, if_neg hk.2.2, if_neg hk.1]

theorem toMessage_isSome (d : MessageDraft) :
    d.toMessage.isSome = isValidMessage d := by
  obtain ⟨i, dm, desc⟩ := d
  cases i <;> cases dm <;> simp [MessageDraft.toMessage, isValidMessage]

theorem toMessage_fields {d : MessageDraft} {m : Message}
    (h : d.toMessage = some m) :
    d.id = some m.id ∧ d.defaultMessage = some m.defaultMessage ∧
      d.description = m.description := by
  obtain ⟨i, dm, desc⟩ := d
  cases i with
  | none => simp [MessageDraft.toMessage] at h
  | some i =>
    cases dm with
    | none => simp [MessageDraft.toMessage] at h
    | some dm =>
      rw [show MessageDraft.toMessage ⟨some i, some dm, desc⟩ =
        some ⟨i, dm, desc⟩ from rfl] at h
      cases Option.some.inj h
      exact ⟨rfl, rfl, rfl⟩

theorem defineMessagesInner_eq (d : MessageDraft) (ip : Node) :
    defineMessagesInner d ip = (dmEntry ip).elim d (copyPair d) := by
  cases ip <;> try rfl
  case propertyAssignment nm propInit =>
    by_cases h1 : (isIdentifier nm || isLiteralExpression nm) = true <;>
      by_cases h2 : (isStringLiteral propInit ||
        isNoSubstitutionTemplateLiteral propInit) = true <;>
      simp [defineMessagesInner, dmEntry, copyPair, h1, h2]

theorem formatMessageStep_eq (d : MessageDraft) (p : Node) :
    formatMessageStep d p = (fmEntry p).elim d (copyPair d) := by
  cases p <;> try rfl
  case propertyAssignment nm propInit =>
    by_cases h1 : ((isIdentifier nm || isLiteralExpression nm) &&
        isStringLiteral propInit) = true <;>
      simp [formatMessageStep, fmEntry, copyPair, h1]

theorem jsxAttrStep_eq (d : MessageDraft) (attr : Node) :
    jsxAttrStep d attr = (attrEntry attr).elim d (copyPair d) := by
  cases attr <;> try rfl
  case jsxAttribute key attrInit =>
    cases attrInit with
    | none => rfl
    | some ai =>
      cases ai <;> try rfl
      case jsxExpression e =>
        cases e with
        | none => rfl
        | some ex => cases ex <;> rfl

/-- Folding any step that acts through an entry function is folding
`copyIfMessageKey` over the entry list. -/
theorem foldl_entries (step : MessageDraft → Node → MessageDraft)
    (entry : Node → Option (String × String))
    (hstep : ∀ d x, step d x = (entry x).elim d (copyPair d)) :
    ∀ (l : List Node) (d : MessageDraft),
      l.foldl step d = (l.filterMap entry).foldl copyPair d := by
  intro l
  induction l with
  | nil => intro d; rfl
  | cons x xs ih =>
    intro d
    rw [List.foldl_cons, List.filterMap_cons, hstep]
    cases hx : entry x with
    | none => simp only [hx, Option.elim]; exact ih d
    | some kv =>
      simp only [hx, Option.elim, List.foldl_cons]
      exact ih (copyPair d kv)

theorem foldl_copyPair_getField (key : String) (hk : recognizedKey key) :
    ∀ (l : List (String × String)) (d : MessageDraft) (s : String),
      getField (l.foldl copyPair d) key = some s →
      getField d key = some s ∨ (key, s) ∈ l := by
  intro l
  induction l with
  | nil => intro d s h; exact Or.inl h
  | cons x xs ih =>
    intro d s h
    obtain ⟨k1, v1⟩ := x
    rw [List.foldl_cons] at h
    rcases ih _ _ h with h2 | h2
    · rw [copyPair, copy_getField _ _ _ _ hk] at h2
      by_cases hx : k1 = key
      · rw [if_pos hx] at h2
        subst hx
        cases Option.some.inj h2
        exact Or.inr (List.mem_cons_self _ _)
      · rw [if_neg hx] at h2
        exact Or.inl h2
    · exact Or.inr (List.mem_cons_of_mem _ h2)

theorem foldl_copyPair_isSome (key : String) (hk : recognizedKey key) :
    ∀ (l : List (String × String)) (d : MessageDraft),
      (getField d key).isSome = true →
      (getField (l.foldl copyPair d) key).isSome = true := by
  intro l
  induction l with
  | nil => intro d h; exact h
  | cons x xs ih =>
    intro d h
    rw [List.foldl_cons]
    apply ih
    obtain ⟨k1, v1⟩ := x
    rw [copyPair, copy_getField _ _ _ _ hk]
    by_cases hx : k1 = key
    · rw [if_pos hx]; rfl
    · rw [if_neg hx]; exact h

theorem foldl_copyPair_isSome_of_mem (key s : String) (hk : recognizedKey key) :
    ∀ (l : List (String × String)) (d : MessageDraft), (key, s) ∈ l →
      (getField (l.foldl copyPair d) key).isSome = true := by
  intro l
  induction l with
  | nil => intro d h; cases h
  | cons x xs ih =>
    intro d h
    rw [List.foldl_cons]
    rcases List.mem_cons.mp h with h1 | h1
    · apply foldl_copyPair_isSome key hk
      rw [← h1, copyPair, copy_getField _ _ _ _ hk, if_pos rfl]
      rfl
    · exact ih _ h1

theorem foldl_copyPair_last (key v : String) (hk : recognizedKey key)
    (l : List (String × String)) (d : MessageDraft) :
    getField ((l ++ [(key, v)]).foldl copyPair d) key = some v := by
  rw [List.foldl_append, List.foldl_cons, List.foldl_nil, copyPair,
    copy_getField _ _ _ _ hk, if_pos rfl]

/-- Folding any push-one step is `filterMap`. -/
theorem foldl_push_filterMap {α β : Type} (f : α → Option β)
    (step : List β → α → List β)
    (hstep : ∀ acc p, step acc p = acc ++ (f p).toList) :
    ∀ (l : List α) (acc : List β), l.foldl step acc = acc ++ l.filterMap f := by
  intro l
  induction l with
  | nil => intro acc; simp
  | cons x xs ih =>
    intro acc
    rw [List.foldl_cons, List.filterMap_cons, hstep]
    cases hx : f x with
    | none => simp only [hx, Option.toList, List.append_nil]; exact ih acc
    | some m =>
      simp only [hx, Option.toList]
      rw [ih, List.append_assoc]
      rfl

/-- Folding any push-list step is mapping and flattening. -/
theorem foldl_push_flatten {α β : Type} (g : α → List β)
    (step : List β → α → List β)
    (hstep : ∀ acc p, step acc p = acc ++ g p) :
    ∀ (l : List α) (acc : List β),
      l.foldl step acc = acc ++ (l.map g).flatten := by
  intro l
  induction l with
  | nil => intro acc; simp
  | cons x xs ih =>
    intro acc
    rw [List.foldl_cons, List.map_cons, List.flatten_cons, hstep, ih,
      List.append_assoc]

theorem getField_id (d : MessageDraft) : getField d "id" = d.id := by
  simp [getField]

theorem getField_defaultMessage (d : MessageDraft) :
    getField d "defaultMessage" = d.defaultMessage := by
  simp [getField]

theorem getField_description (d : MessageDraft) :
    getField d "description" = d.description := by
  simp [getField]

theorem defineMessagesProp_eq (messages : List Message) (p : Node) :
    defineMessagesProp messages p = messages ++ (dmProp p).toList := by
  cases p <;> try simp [defineMessagesProp, dmProp, Option.toList]
  case propertyAssignment nm propInit =>
    cases propInit <;> try simp [defineMessagesProp, dmProp, Option.toList]
    case objectLiteralExpression iprops =>
      cases h : (iprops.foldl defineMessagesInner {}).toMessage <;>
        simp [defineMessagesProp, dmProp, h, Option.toList]

theorem extractDM_eq (props : List Node) :
    extractMessagesForDefineMessages (.objectLiteralExpression props) =
      props.filterMap dmProp := by
  show props.foldl defineMessagesProp [] = _
  rw [foldl_push_filterMap dmProp defineMessagesProp defineMessagesProp_eq props [],
    List.nil_append]

theorem extractFM_eq (props : List Node) :
    extractMessagesForFormatMessage (.objectLiteralExpression props) =
      ((props.foldl formatMessageStep {}).toMessage).toList := by
  show (match (props.foldl formatMessageStep {}).toMessage with
    | some m => [m]
    | none => []) = _
  cases (props.foldl formatMessageStep {}).toMessage <;> rfl

theorem findMethodCallsStep_eq (methodName : String)
    (ext : Node → List Message) (messages : List Message) (decl : Node) :
    findMethodCallsStep methodName ext messages decl =
      messages ++ declMessages methodName ext decl := by
  unfold findMethodCallsStep declMessages
  by_cases h : isMethodCall decl methodName = true
  · rw [if_pos h, if_pos h]
    cases decl <;> try simp
    next nm declInit =>
      cases declInit with
      | none => simp
      | some di =>
        cases di <;> try simp
        next e args => cases args <;> simp
  · rw [if_neg h, if_neg h, List.append_nil]

theorem findMethodCalls_eq (sf : Node) (methodName : String)
    (ext : Node → List Message) :
    findMethodCallsWithName sf methodName ext =
      ((forAllVarDecls sf).map (declMessages methodName ext)).flatten := by
  show (forAllVarDecls sf).foldl (findMethodCallsStep methodName ext) [] = _
  rw [foldl_push_flatten (declMessages methodName ext)
    (findMethodCallsStep methodName ext) (findMethodCallsStep_eq methodName ext)
    (forAllVarDecls sf) [], List.nil_append]

theorem getElements_eq (elements : List Node) :
    getElementsMessages elements = elements.filterMap elementMessage := by
  induction elements with
  | nil => rfl
  | cons x xs ih =>
    show ((x :: xs).map elementMessage).filterMap id = _
    rw [List.map_cons, List.filterMap_cons, List.filterMap_cons]
    cases hx : elementMessage x with
    | none => simpa [hx] using ih
    | some m => simpa [hx] using ih

theorem main_eq (sf : Node) (opts : Options) :
    main sf opts =
      (("FormattedMessage" :: opts.tagNames).map
        (fun t => getElementsMessages
          (findJsxOpeningLikeElementsWithName sf t))).flatten ++
      findMethodCallsWithName sf "defineMessages"
        extractMessagesForDefineMessages ++
      findMethodCallsWithName sf "formatMessage"
        extractMessagesForFormatMessage := by
  show ("FormattedMessage" :: opts.tagNames).foldl
      (fun results tagName => results ++ getElementsMessages
        (findJsxOpeningLikeElementsWithName sf tagName)) [] ++ _ ++ _ = _
  rw [foldl_push_flatten
    (fun t => getElementsMessages (findJsxOpeningLikeElementsWithName sf t))
    (fun results tagName => results ++ getElementsMessages
      (findJsxOpeningLikeElementsWithName sf tagName))
    (fun _ _ => rfl) ("FormattedMessage" :: opts.tagNames) [], List.nil_append]

theorem self_mem_preorder (n : Node) : n ∈ preorder n := by
  rw [preorder_def]
  exact List.mem_cons_self _ _

theorem mem_preorder_of_child {c x n : Node} (hc : c ∈ n.children)
    (hx : x ∈ preorder c) : x ∈ preorder n := by
  rw [preorder_def]
  apply List.mem_cons_of_mem
  rw [List.mem_flatten]
  exact ⟨preorder c, List.mem_map_of_mem preorder hc, hx⟩

theorem preorder_trans {x m : Node} : ∀ {n : Node}, m ∈ preorder n →
    x ∈ preorder m → x ∈ preorder n := by
  intro n
  induction n using Node.strongInd with
  | _ n ih =>
    intro hm hx
    rw [preorder_def] at hm
    rcases List.mem_cons.mp hm with rfl | hm
    · exact hx
    · rw [List.mem_flatten] at hm
      obtain ⟨l, hl, hml⟩ := hm
      obtain ⟨c, hc, rfl⟩ := List.mem_map.mp hl
      exact mem_preorder_of_child hc (ih c hc hml hx)

theorem forAllVarDecls_mem {d : Node} : ∀ {n : Node}, d ∈ forAllVarDecls n →
    isVariableDeclaration d = true ∧ d ∈ preorder n := by
  intro n
  induction n using Node.strongInd with
  | _ n ih =>
    intro hd
    rw [forAllVarDecls_def] at hd
    by_cases hv : isVariableDeclaration n = true
    · rw [if_pos hv] at hd
      rcases List.mem_singleton.mp hd with rfl
      exact ⟨hv, self_mem_preorder _⟩
    · rw [if_neg hv] at hd
      rw [List.mem_flatten] at hd
      obtain ⟨l, hl, hdl⟩ := hd
      obtain ⟨c, hc, rfl⟩ := List.mem_map.mp hl
      obtain ⟨h1, h2⟩ := ih c hc hdl
      exact ⟨h1, mem_preorder_of_child hc h2⟩

theorem mem_literalTexts {s : String} {x n : Node} (hx : x ∈ preorder n)
    (hs : literalString x = some s) : s ∈ literalTexts n := by
  rw [literalTexts, List.mem_filterMap]
  exact ⟨x, hx, hs⟩

theorem literalTexts_mono {m n : Node} (hm : m ∈ preorder n) :
    literalTexts m ⊆ literalTexts n := by
  intro s hs
  rw [literalTexts, List.mem_filterMap] at hs
  obtain ⟨x, hx, hsx⟩ := hs
  exact mem_literalTexts (preorder_trans hm hx) hsx

theorem literalTexts_child {c n : Node} (hc : c ∈ n.children) :
    literalTexts c ⊆ literalTexts n :=
  literalTexts_mono (mem_preorder_of_child hc (self_mem_preorder c))

theorem filter_flatten {α : Type} (p : α → Bool) :
    ∀ L : List (List α), L.flatten.filter p = (L.map (List.filter p)).flatten := by
  intro L
  induction L with
  | nil => rfl
  | cons x xs ih =>
    rw [List.flatten_cons, List.filter_append, List.map_cons, List.flatten_cons, ih]

/-- The JSX matcher is the document-order filter of the match test. -/
theorem findJsx_eq_filter (tagName : String) : ∀ n : Node,
    findJsxOpeningLikeElementsWithName n tagName =
      (preorder n).filter (jsxMatches tagName) := by
  intro n
  induction n using Node.strongInd with
  | _ n ih =>
    rw [findJsx_def, preorder_def, List.filter_cons]
    have hflat : ((n.children.map preorder).flatten).filter (jsxMatches tagName) =
        (n.children.map
          (fun c => findJsxOpeningLikeElementsWithName c tagName)).flatten := by
      rw [filter_flatten, List.map_map]
      congr 1
      apply List.map_congr_left
      intro c hc
      exact (ih c hc).symm
    by_cases hm : jsxMatches tagName n = true
    · rw [if_pos hm, if_pos hm, hflat]
      rfl
    · rw [if_neg hm, if_neg hm, hflat]
      rfl

/-- A recognized field of a fold built from entries comes from some entry. -/
theorem fold_field_from_entries (entry : Node → Option (String × String))
    (step : MessageDraft → Node → MessageDraft)
    (hstep : ∀ d x, step d x = (entry x).elim d (copyPair d))
    (key : String) (hk : recognizedKey key) {l : List Node} {s : String}
    (h : getField (l.foldl step {}) key = some s) :
    ∃ x ∈ l, entry x = some (key, s) := by
  rw [foldl_entries step entry hstep] at h
  rcases foldl_copyPair_getField key hk _ _ _ h with h2 | h2
  · rcases hk with rfl | rfl | rfl <;> simp [getField] at h2
  · exact List.mem_filterMap.mp h2

theorem dmEntry_text {ip : Node} {k s : String} (h : dmEntry ip = some (k, s)) :
    s ∈ literalTexts ip := by
  cases ip
  case propertyAssignment nm propInit =>
    simp only [dmEntry] at h
    split_ifs at h with hc
    · have hpair := Option.some.inj h
      have hs : propInit.text = s := congrArg Prod.snd hpair
      have hlit : literalString propInit = some s := by
        rw [Bool.and_eq_true] at hc
        have h2 := hc.2
        cases propInit <;>
          simp_all [isStringLiteral, isNoSubstitutionTemplateLiteral,
            literalString, Node.text]
      apply mem_literalTexts _ hlit
      exact mem_preorder_of_child (by simp [Node.children])
        (self_mem_preorder propInit)
  all_goals simp [dmEntry] at h

theorem fmEntry_text {p : Node} {k s : String} (h : fmEntry p = some (k, s)) :
    s ∈ literalTexts p := by
  cases p
  case propertyAssignment nm propInit =>
    simp only [fmEntry] at h
    split_ifs at h with hc
    · have hpair := Option.some.inj h
      have hs : propInit.text = s := congrArg Prod.snd hpair
      have hlit : literalString propInit = some s := by
        rw [Bool.and_eq_true] at hc
        have h2 := hc.2
        cases propInit <;>
          simp_all [isStringLiteral, literalString, Node.text]
      apply mem_literalTexts _ hlit
      exact mem_preorder_of_child (by simp [Node.children])
        (self_mem_preorder propInit)
  all_goals simp [fmEntry] at h

theorem attrEntry_text {a : Node} {k s : String} (h : attrEntry a = some (k, s)) :
    s ∈ literalTexts a := by
  cases a
  case jsxAttribute key attrInit =>
    cases attrInit with
    | none => exact absurd h (by simp [attrEntry])
    | some ai =>
      simp only [attrEntry] at h
      split_ifs at h with hc
      · have hs : ai.text = s := congrArg Prod.snd (Option.some.inj h)
        have hlit : literalString ai = some s := by
          cases ai <;> simp_all [isStringLiteral, literalString, Node.text]
        apply mem_literalTexts _ hlit
        exact mem_preorder_of_child (by simp [Node.children])
          (self_mem_preorder ai)
      · cases ai <;> try exact Option.noConfusion h
        next e =>
          cases e with
          | none => exact Option.noConfusion h
          | some ex =>
            simp only at h
            split_ifs at h with hc2
            have hs : ex.text = s := congrArg Prod.snd (Option.some.inj h)
            have hlit : literalString ex = some s := by
              cases ex <;>
                simp_all [isStringLiteral, isNoSubstitutionTemplateLiteral,
                  literalString, Node.text]
            apply mem_literalTexts _ hlit
            apply mem_preorder_of_child
              (show (Node.jsxExpression (some ex)) ∈
                (Node.jsxAttribute key (some (.jsxExpression (some ex)))).children
                by simp [Node.children])
            exact mem_preorder_of_child (by simp [Node.children])
              (self_mem_preorder ex)
  all_goals simp [attrEntry] at h

/-- An extractor whose output fields always come from literals of its input. -/
def FieldsFromLiterals (ext : Node → List Message) : Prop :=
  ∀ n m, m ∈ ext n → m.id ∈ literalTexts n ∧ m.defaultMessage ∈ literalTexts n

theorem dm_fieldsFromLiterals : FieldsFromLiterals extractMessagesForDefineMessages := by
  intro n m h
  cases n
  case objectLiteralExpression props =>
    rw [extractDM_eq] at h
    obtain ⟨p, hp, hdm⟩ := List.mem_filterMap.mp h
    cases p
    case propertyAssignment nm propInit =>
      cases propInit
      case objectLiteralExpression iprops =>
        simp only [dmProp] at hdm
        obtain ⟨hid, hdmsg, -⟩ := toMessage_fields hdm
        have hsub : literalTexts (Node.objectLiteralExpression iprops) ⊆
            literalTexts (Node.objectLiteralExpression props) := by
          apply Set.Subset.trans ?_ (literalTexts_child (n := Node.objectLiteralExpression props) hp)
          exact literalTexts_child (by simp [Node.children])
        constructor
        · obtain ⟨x, hx, he⟩ := fold_field_from_entries dmEntry
            defineMessagesInner defineMessagesInner_eq "id" (Or.inl rfl)
            (by rw [getField_id, hid])
          exact hsub (literalTexts_child (n := Node.objectLiteralExpression iprops)
            hx (dmEntry_text he))
        · obtain ⟨x, hx, he⟩ := fold_field_from_entries dmEntry
            defineMessagesInner defineMessagesInner_eq "defaultMessage"
            (Or.inr (Or.inl rfl)) (by rw [getField_defaultMessage, hdmsg])
          exact hsub (literalTexts_child (n := Node.objectLiteralExpression iprops)
            hx (dmEntry_text he))
      all_goals simp [dmProp] at hdm
    all_goals simp [dmProp] at hdm
  all_goals simp [extractMessagesForDefineMessages] at h

theorem fm_fieldsFromLiterals : FieldsFromLiterals extractMessagesForFormatMessage := by
  intro n m h
  cases n
  case objectLiteralExpression props =>
    rw [extractFM_eq] at h
    cases hT : (props.foldl formatMessageStep {}).toMessage with
    | none => rw [hT] at h; cases h
    | some m2 =>
      rw [hT] at h
      rcases List.mem_singleton.mp h with rfl
      obtain ⟨hid, hdmsg, -⟩ := toMessage_fields hT
      constructor
      · obtain ⟨x, hx, he⟩ := fold_field_from_entries fmEntry
          formatMessageStep formatMessageStep_eq "id" (Or.inl rfl)
          (by rw [getField_id, hid])
        exact literalTexts_child (n := Node.objectLiteralExpression props)
          hx (fmEntry_text he)
      · obtain ⟨x, hx, he⟩ := fold_field_from_entries fmEntry
          formatMessageStep formatMessageStep_eq "defaultMessage"
          (Or.inr (Or.inl rfl)) (by rw [getField_defaultMessage, hdmsg])
        exact literalTexts_child (n := Node.objectLiteralExpression props)
          hx (fmEntry_text he)
  all_goals simp [extractMessagesForFormatMessage] at h

theorem element_fields {el : Node} {m : Message}
    (h : elementMessage el = some m) :
    m.id ∈ literalTexts el ∧ m.defaultMessage ∈ literalTexts el := by
  cases el
  case jsxOpeningLikeElement tn attrs =>
    simp only [elementMessage] at h
    obtain ⟨hid, hdmsg, -⟩ := toMessage_fields h
    constructor
    · obtain ⟨x, hx, he⟩ := fold_field_from_entries attrEntry
        jsxAttrStep jsxAttrStep_eq "id" (Or.inl rfl) (by rw [getField_id, hid])
      exact literalTexts_child (n := Node.jsxOpeningLikeElement tn attrs)
        (by simp [Node.children]; exact Or.inr hx) (attrEntry_text he)
    · obtain ⟨x, hx, he⟩ := fold_field_from_entries attrEntry
        jsxAttrStep jsxAttrStep_eq "defaultMessage" (Or.inr (Or.inl rfl))
        (by rw [getField_defaultMessage, hdmsg])
      exact literalTexts_child (n := Node.jsxOpeningLikeElement tn attrs)
        (by simp [Node.children]; exact Or.inr hx) (attrEntry_text he)
  all_goals simp [elementMessage] at h

theorem extractNode_fields {ext : Node → List Message}
    (hext : FieldsFromLiterals ext) :
    ∀ {node : Node} {m : Message}, m ∈ extractMessagesForNode node ext →
      m.id ∈ literalTexts node ∧ m.defaultMessage ∈ literalTexts node := by
  intro node
  induction node using Node.strongInd with
  | _ n ih =>
    intro m hm
    rw [extractMessagesForNode_def] at hm
    by_cases ho : isObjectLiteralExpression n = true
    · rw [if_pos ho] at hm
      exact hext n m hm
    · rw [if_neg ho] at hm
      rw [List.mem_flatten] at hm
      obtain ⟨l, hl, hml⟩ := hm
      obtain ⟨c, hc, rfl⟩ := List.mem_map.mp hl
      obtain ⟨h1, h2⟩ := ih c hc hml
      exact ⟨literalTexts_child hc h1, literalTexts_child hc h2⟩

theorem findMethodCalls_fields {sf : Node} {methodName : String}
    {ext : Node → List Message} (hext : FieldsFromLiterals ext) {m : Message}
    (h : m ∈ findMethodCallsWithName sf methodName ext) :
    m.id ∈ literalTexts sf ∧ m.defaultMessage ∈ literalTexts sf := by
  rw [findMethodCalls_eq, List.mem_flatten] at h
  obtain ⟨l, hl, hml⟩ := h
  obtain ⟨decl, hdecl, rfl⟩ := List.mem_map.mp hl
  have hdp : decl ∈ preorder sf := (forAllVarDecls_mem hdecl).2
  unfold declMessages at hml
  split_ifs at hml with hc
  · cases decl <;> try simp at hml
    next nm declInit =>
      cases declInit with
      | none => simp at hml
      | some di =>
        cases di <;> try simp at hml
        next e args =>
          cases args with
          | nil => simp at hml
          | cons a rest =>
            obtain ⟨h1, h2⟩ := extractNode_fields hext hml
            have hasub : literalTexts a ⊆ literalTexts sf := by
              apply Set.Subset.trans ?_ (literalTexts_mono hdp)
              apply Set.Subset.trans ?_
                (literalTexts_child
                  (c := Node.callExpression e (a :: rest)) (by simp [Node.children]))
              exact literalTexts_child (by simp [Node.children])
            exact ⟨hasub h1, hasub h2⟩
  · simp at hml

theorem jsx_fields {sf : Node} {t : String} {m : Message}
    (h : m ∈ getElementsMessages (findJsxOpeningLikeElementsWithName sf t)) :
    m.id ∈ literalTexts sf ∧ m.defaultMessage ∈ literalTexts sf := by
  rw [getElements_eq] at h
  obtain ⟨el, hel, hm⟩ := List.mem_filterMap.mp h
  have help : el ∈ preorder sf := by
    rw [findJsx_eq_filter] at hel
    exact List.mem_of_mem_filter hel
  obtain ⟨h1, h2⟩ := element_fields hm
  exact ⟨literalTexts_mono help h1, literalTexts_mono help h2⟩

theorem sizeOf_pos (n : Node) : 1 ≤ sizeOf n := by
  cases n <;> simp_arith

theorem mem_preorder_sizeOf {m : Node} : ∀ {n : Node}, m ∈ preorder n →
    sizeOf m ≤ sizeOf n := by
  intro n
  induction n using Node.strongInd with
  | _ n ih =>
    intro hm
    rw [preorder_def] at hm
    rcases List.mem_cons.mp hm with rfl | hm
    · exact le_rfl
    · rw [List.mem_flatten] at hm
      obtain ⟨l, hl, hml⟩ := hm
      obtain ⟨c, hc, rfl⟩ := List.mem_map.mp hl
      exact (ih c hc hml).trans (le_of_lt (children_sizeOf hc))

theorem preorderF_eq : ∀ (f : Nat) (n : Node), sizeOf n ≤ f →
    preorderF f n = preorder n := by
  intro f
  induction f with
  | zero => intro n h; exact absurd h (by have := sizeOf_pos n; omega)
  | succ f ih =>
    intro n h
    rw [preorder_def]
    show n :: (n.children.map (preorderF f)).flatten = _
    congr 1
    congr 1
    apply List.map_congr_left
    intro c hc
    exact ih c (by have := children_sizeOf hc; omega)

theorem forAllVarDeclsF_eq : ∀ (f : Nat) (n : Node), sizeOf n ≤ f →
    forAllVarDeclsF f n = forAllVarDecls n := by
  intro f
  induction f with
  | zero => intro n h; exact absurd h (by have := sizeOf_pos n; omega)
  | succ f ih =>
    intro n h
    rw [forAllVarDecls_def]
    show (if isVariableDeclaration n then [n]
      else (n.children.map (forAllVarDeclsF f)).flatten) = _
    by_cases hv : isVariableDeclaration n = true
    · rw [if_pos hv, if_pos hv]
    · rw [if_neg hv, if_neg hv]
      congr 1
      apply List.map_congr_left
      intro c hc
      exact ih c (by have := children_sizeOf hc; omega)

theorem findJsxF_eq : ∀ (f : Nat) (tagName : String) (n : Node), sizeOf n ≤ f →
    findJsxF f tagName n = findJsxOpeningLikeElementsWithName n tagName := by
  intro f
  induction f with
  | zero => intro t n h; exact absurd h (by have := sizeOf_pos n; omega)
  | succ f ih =>
    intro t n h
    rw [findJsx_def]
    show (if jsxMatches t n then [n] else []) ++
      (n.children.map (findJsxF f t)).flatten = _
    congr 1
    congr 1
    apply List.map_congr_left
    intro c hc
    exact ih t c (by have := children_sizeOf hc; omega)

theorem extractNodeF_eq (ext : Node → List Message) :
    ∀ (f : Nat) (n : Node), sizeOf n ≤ f →
    extractNodeF f ext n = extractMessagesForNode n ext := by
  intro f
  induction f with
  | zero => intro n h; exact absurd h (by have := sizeOf_pos n; omega)
  | succ f ih =>
    intro n h
    rw [extractMessagesForNode_def]
    show (if isObjectLiteralExpression n then ext n
      else (n.children.map (extractNodeF f ext)).flatten) = _
    by_cases ho : isObjectLiteralExpression n = true
    · rw [if_pos ho, if_pos ho]
    · rw [if_neg ho, if_neg ho]
      congr 1
      apply List.map_congr_left
      intro c hc
      exact ih c (by have := children_sizeOf hc; omega)

theorem declMessagesF_eq (f : Nat) (methodName : String)
    (ext : Node → List Message) (decl : Node) (h : sizeOf decl ≤ f) :
    declMessagesF f methodName ext decl = declMessages methodName ext decl := by
  unfold declMessagesF declMessages
  by_cases hc : isMethodCall decl methodName = true
  · rw [if_pos hc, if_pos hc]
    cases decl <;> try rfl
    next nm declInit =>
      cases declInit with
      | none => rfl
      | some di =>
        cases di <;> try rfl
        next e args =>
          cases args with
          | nil => rfl
          | cons a rest =>
            apply extractNodeF_eq
            have h1 : sizeOf a < sizeOf (Node.callExpression e (a :: rest)) :=
              children_sizeOf (by simp [Node.children])
            have h2 : sizeOf (Node.callExpression e (a :: rest)) <
                sizeOf (Node.variableDeclaration nm
                  (some (Node.callExpression e (a :: rest)))) :=
              children_sizeOf (by simp [Node.children])
            omega
  · rw [if_neg hc, if_neg hc]

theorem findMethodCallsF_eq (f : Nat) (sf : Node) (methodName : String)
    (ext : Node → List Message) (h : sizeOf sf ≤ f) :
    findMethodCallsF f sf methodName ext =
      findMethodCallsWithName sf methodName ext := by
  rw [findMethodCalls_eq, findMethodCallsF, forAllVarDeclsF_eq f sf h]
  congr 1
  apply List.map_congr_left
  intro d hd
  exact declMessagesF_eq f methodName ext d
    ((mem_preorder_sizeOf (forAllVarDecls_mem hd).2).trans h)

theorem mainF_eq (f : Nat) (sf : Node) (opts : Options) (h : sizeOf sf ≤ f) :
    mainF f sf opts = main sf opts := by
  rw [main_eq, mainF, findMethodCallsF_eq f sf _ _ h, findMethodCallsF_eq f sf _ _ h]
  congr 2
  congr 1
  apply List.map_congr_left
  intro t ht
  rw [findJsxF_eq f t sf h]

theorem main_eval (sf : Node) (opts : Options) :
    main sf opts = mainF (sizeOf sf) sf opts :=
  (mainF_eq (sizeOf sf) sf opts le_rfl).symm

theorem forAllVarDecls_eval (n : Node) :
    forAllVarDecls n = forAllVarDeclsF (sizeOf n) n :=
  (forAllVarDeclsF_eq (sizeOf n) n le_rfl).symm

theorem findMethodCalls_eval (sf : Node) (methodName : String)
    (ext : Node → List Message) :
    findMethodCallsWithName sf methodName ext =
      findMethodCallsF (sizeOf sf) sf methodName ext :=
  (findMethodCallsF_eq (sizeOf sf) sf methodName ext le_rfl).symm

theorem extractNode_eval (n : Node) (ext : Node → List Message) :
    extractMessagesForNode n ext = extractNodeF (sizeOf n) ext n :=
  (extractNodeF_eq ext (sizeOf n) n le_rfl).symm

theorem preorder_eval (n : Node) : preorder n = preorderF (sizeOf n) n :=
  (preorderF_eq (sizeOf n) n le_rfl).symm

theorem literalTexts_eval (n : Node) :
    literalTexts n = literalTextsF (sizeOf n) n := by
  rw [literalTexts, literalTextsF, preorder_eval]

/-- Dropping a list element on which the folded function is the identity does
not change a fold. -/
theorem foldl_skip {α β : Type} (f : β → α → β) (a : α)
    (ha : ∀ b, f b a = b) (xs ys : List α) (b : β) :
    (xs ++ a :: ys).foldl f b = (xs ++ ys).foldl f b := by
  rw [List.foldl_append, List.foldl_append, List.foldl_cons, ha]

theorem getElements_singleton (el : Node) :
    getElementsMessages [el] = (elementMessage el).toList := by
  cases h : elementMessage el <;>
    simp [getElementsMessages, h, Option.toList]

theorem jsxMatches_false {x : Node} (t : String)
    (h : isJsxOpeningLikeElement x = false) : jsxMatches t x = false := by
  cases x <;> simp_all [jsxMatches, isJsxOpeningLikeElement]

theorem forAllVarDecls_nil : ∀ {n : Node},
    (∀ x ∈ preorder n, isVariableDeclaration x = false) →
    forAllVarDecls n = [] := by
  intro n
  induction n using Node.strongInd with
  | _ n ih =>
    intro h
    have hn := h n (self_mem_preorder n)
    rw [forAllVarDecls_def, if_neg (by simp [hn])]
    rw [List.flatten_eq_nil_iff]
    intro l hl
    obtain ⟨c, hc, rfl⟩ := List.mem_map.mp hl
    exact ih c hc (fun x hx => h x (mem_preorder_of_child hc hx))

theorem main_nil {sf : Node} (opts : Options)
    (h : ∀ x ∈ preorder sf, isVariableDeclaration x = false ∧
      isJsxOpeningLikeElement x = false) :
    main sf opts = [] := by
  rw [main_eq, findMethodCalls_eq, findMethodCalls_eq,
    forAllVarDecls_nil (fun x hx => (h x hx).1)]
  simp only [List.map_nil, List.flatten_nil, List.append_nil]
  rw [List.flatten_eq_nil_iff]
  intro l hl
  obtain ⟨t, ht, rfl⟩ := List.mem_map.mp hl
  rw [findJsx_eq_filter]
  rw [show (preorder sf).filter (jsxMatches t) = [] from
    List.filter_eq_nil_iff.mpr (fun x hx => by
      simp [jsxMatches_false t (h x hx).2])]
  rfl

theorem main_fields {sf : Node} {opts : Options} {m : Message}
    (h : m ∈ main sf opts) :
    m.id ∈ literalTexts sf ∧ m.defaultMessage ∈ literalTexts sf := by
  rw [main_eq] at h
  rcases List.mem_append.mp h with h1 | hfm
  · rcases List.mem_append.mp h1 with hjsx | hdm
    · rw [List.mem_flatten] at hjsx
      obtain ⟨l, hl, hml⟩ := hjsx
      obtain ⟨t, ht, rfl⟩ := List.mem_map.mp hl
      exact jsx_fields hml
    · exact findMethodCalls_fields dm_fieldsFromLiterals hdm
  · exact findMethodCalls_fields fm_fieldsFromLiterals hfm

theorem fmEntry_key {k : String} {propInit : Node} {kv : String × String}
    (h : fmEntry (.propertyAssignment (.identifier k) propInit) = some kv) :
    kv.1 = k := by
  simp only [fmEntry] at h
  split_ifs at h with h1
  cases Option.some.inj h
  rfl

theorem dmEntry_key {k : String} {propInit : Node} {kv : String × String}
    (h : dmEntry (.propertyAssignment (.identifier k) propInit) = some kv) :
    kv.1 = k := by
  simp only [dmEntry] at h
  split_ifs at h with h1
  cases Option.some.inj h
  rfl

theorem attrEntry_key {k : String} {i : Option Node} {kv : String × String}
    (h : attrEntry (.jsxAttribute k i) = some kv) : kv.1 = k := by
  cases i with
  | none => exact Option.noConfusion h
  | some ai =>
    simp only [attrEntry] at h
    split_ifs at h with h1
    · cases Option.some.inj h
      rfl
    · cases ai <;> try exact Option.noConfusion h
      next e =>
        cases e with
        | none => exact Option.noConfusion h
        | some ex =>
          simp only at h
          split_ifs at h with h2
          cases Option.some.inj h
          rfl

theorem formatMessageStep_unknown {key : String} (hk : ¬ recognizedKey key)
    (d : MessageDraft) (propInit : Node) :
    formatMessageStep d (.propertyAssignment (.identifier key) propInit) = d := by
  rw [formatMessageStep_eq]
  cases he : fmEntry (.propertyAssignment (.identifier key) propInit) with
  | none => rfl
  | some kv =>
    show copyPair d kv = d
    obtain ⟨k1, v1⟩ := kv
    have h1 : k1 = key := fmEntry_key he
    subst h1
    exact copy_unknown d k1 v1 hk

theorem defineMessagesInner_unknown {key : String} (hk : ¬ recognizedKey key)
    (d : MessageDraft) (propInit : Node) :
    defineMessagesInner d (.propertyAssignment (.identifier key) propInit) = d := by
  rw [defineMessagesInner_eq]
  cases he : dmEntry (.propertyAssignment (.identifier key) propInit) with
  | none => rfl
  | some kv =>
    show copyPair d kv = d
    obtain ⟨k1, v1⟩ := kv
    have h1 : k1 = key := dmEntry_key he
    subst h1
    exact copy_unknown d k1 v1 hk

theorem jsxAttrStep_unknown {key : String} (hk : ¬ recognizedKey key)
    (d : MessageDraft) (attrInit : Option Node) :
    jsxAttrStep d (.jsxAttribute key attrInit) = d := by
  rw [jsxAttrStep_eq]
  cases he : attrEntry (.jsxAttribute key attrInit) with
  | none => rfl
  | some kv =>
    show copyPair d kv = d
    obtain ⟨k1, v1⟩ := kv
    have h1 : k1 = key := attrEntry_key he
    subst h1
    exact copy_unknown d k1 v1 hk

theorem extractFM_skip {p : Node} (hstep : ∀ d : MessageDraft, formatMessageStep d p = d)
    (xs ys : List Node) :
    extractMessagesForFormatMessage (.objectLiteralExpression (xs ++ p :: ys)) =
      extractMessagesForFormatMessage (.objectLiteralExpression (xs ++ ys)) := by
  rw [extractFM_eq, extractFM_eq, foldl_skip formatMessageStep p hstep]

theorem dmProp_skip {ip : Node}
    (hstep : ∀ d : MessageDraft, defineMessagesInner d ip = d)
    (nm : Node) (xs ys : List Node) :
    dmProp (.propertyAssignment nm (.objectLiteralExpression (xs ++ ip :: ys))) =
      dmProp (.propertyAssignment nm (.objectLiteralExpression (xs ++ ys))) := by
  show (((xs ++ ip :: ys).foldl defineMessagesInner {}).toMessage) = _
  rw [foldl_skip defineMessagesInner ip hstep]
  rfl

theorem extractDM_skip {ip : Node}
    (hstep : ∀ d : MessageDraft, defineMessagesInner d ip = d)
    (ps qs xs ys : List Node) (nm : Node) :
    extractMessagesForDefineMessages (.objectLiteralExpression
      (ps ++ .propertyAssignment nm
        (.objectLiteralExpression (xs ++ ip :: ys)) :: qs)) =
    extractMessagesForDefineMessages (.objectLiteralExpression
      (ps ++ .propertyAssignment nm
        (.objectLiteralExpression (xs ++ ys)) :: qs)) := by
  rw [extractDM_eq, extractDM_eq, List.filterMap_append, List.filterMap_append,
    List.filterMap_cons, List.filterMap_cons, dmProp_skip hstep nm xs ys]

theorem getElements_skip {a : Node}
    (hstep : ∀ d : MessageDraft, jsxAttrStep d a = d)
    (tag : Node) (xs ys : List Node) :
    getElementsMessages [.jsxOpeningLikeElement tag (xs ++ a :: ys)] =
      getElementsMessages [.jsxOpeningLikeElement tag (xs ++ ys)] := by
  rw [getElements_singleton, getElements_singleton]
  show (((xs ++ a :: ys).foldl jsxAttrStep {}).toMessage).toList = _
  rw [foldl_skip jsxAttrStep a hstep]
  rfl

theorem outerObjectLiterals_def (node : Node) :
    outerObjectLiterals node =
      if isObjectLiteralExpression node then [node]
      else (node.children.map outerObjectLiterals).flatten := by
  rw [outerObjectLiterals, List.attach_map_val node.children outerObjectLiterals]

/-- Pointwise sublists flatten to a sublist. -/
theorem flatten_sublist {α : Type} (f g : Node → List α) :
    ∀ cs : List Node, (∀ c ∈ cs, List.Sublist (f c) (g c)) →
      List.Sublist ((cs.map f).flatten) ((cs.map g).flatten) := by
  intro cs
  induction cs with
  | nil => intro h; simp
  | cons x xs ih =>
    intro h
    rw [List.map_cons, List.map_cons, List.flatten_cons, List.flatten_cons]
    exact (h x (List.mem_cons_self x xs)).append
      (ih (fun c hc => h c (List.mem_cons_of_mem x hc)))

/-- The visited variable declarations form an ordered sublist of the pre-order
(document-order) node listing: the declaration segment respects document
order. -/
theorem forAllVarDecls_sublist : ∀ n : Node,
    List.Sublist (forAllVarDecls n) (preorder n) := by
  intro n
  induction n using Node.strongInd with
  | _ n ih =>
    rw [forAllVarDecls_def, preorder_def]
    by_cases hv : isVariableDeclaration n = true
    · rw [if_pos hv]
      exact List.Sublist.cons₂ n (List.nil_sublist _)
    · rw [if_neg hv]
      exact List.Sublist.cons n (flatten_sublist forAllVarDecls preorder n.children ih)

/-- The outermost object literals form an ordered sublist of the pre-order
(document-order) node listing. -/
theorem outerObjectLiterals_sublist : ∀ n : Node,
    List.Sublist (outerObjectLiterals n) (preorder n) := by
  intro n
  induction n using Node.strongInd with
  | _ n ih =>
    rw [outerObjectLiterals_def, preorder_def]
    by_cases ho : isObjectLiteralExpression n = true
    · rw [if_pos ho]
      exact List.Sublist.cons₂ n (List.nil_sublist _)
    · rw [if_neg ho]
      exact List.Sublist.cons n
        (flatten_sublist outerObjectLiterals preorder n.children ih)

theorem flatten_map_flatten {α β : Type} (g : Node → List α) (ext : α → List β) :
    ∀ cs : List Node,
      (cs.map (fun c => ((g c).map ext).flatten)).flatten =
        (((cs.map g).flatten).map ext).flatten := by
  intro cs
  induction cs with
  | nil => rfl
  | cons x xs ih =>
    rw [List.map_cons, List.flatten_cons, List.map_cons, List.flatten_cons,
      List.map_append, List.flatten_append, ih]

/-- `extractMessagesForNode` applies the extractor to exactly the outermost
object literals, in document order. -/
theorem extractNode_eq_outer (ext : Node → List Message) :
    ∀ node : Node, extractMessagesForNode node ext =
      ((outerObjectLiterals node).map ext).flatten := by
  intro node
  induction node using Node.strongInd with
  | _ n ih =>
    rw [extractMessagesForNode_def, outerObjectLiterals_def]
    by_cases ho : isObjectLiteralExpression n = true
    · rw [if_pos ho, if_pos ho]
      simp
    · rw [if_neg ho, if_neg ho,
        List.map_congr_left (fun c hc => ih c hc),
        flatten_map_flatten outerObjectLiterals ext n.children]

theorem getLast?_elim_cons {α β : Type} :
    ∀ (l : List α) (a : α) (b : β) (f : α → β),
      ((a :: l).getLast?).elim b f = (l.getLast?).elim (f a) f := by
  intro l
  induction l with
  | nil => intro a b f; rfl
  | cons x xs ih =>
    intro a b f
    rw [List.getLast?_cons_cons, ih x b f, ih x (f a) f]

/-- A recognized field of a `copyIfMessageKey` fold is the value of the last
entry carrying that key, or the initial field when there is none. -/
theorem foldl_copyPair_getLast (key : String) (hk : recognizedKey key) :
    ∀ (l : List (String × String)) (d : MessageDraft),
      getField (l.foldl copyPair d) key =
        ((keyValues key l).getLast?).elim (getField d key) some := by
  intro l
  induction l with
  | nil => intro d; rfl
  | cons kv l ih =>
    intro d
    rw [List.foldl_cons, ih (copyPair d kv), copyPair, copy_getField _ _ _ _ hk]
    by_cases hx : kv.1 = key
    · rw [if_pos hx,
        show keyValues key (kv :: l) = kv.2 :: keyValues key l from by
          simp [keyValues, List.filterMap_cons, hx],
        getLast?_elim_cons]
    · rw [if_neg hx,
        show keyValues key (kv :: l) = keyValues key l from by
          simp [keyValues, List.filterMap_cons, hx]]

theorem getField_empty (key : String) :
    getField ({} : MessageDraft) key = none := by
  unfold getField
  split_ifs <;> rfl

theorem elim_none_some {α : Type} (o : Option α) : o.elim none some = o := by
  cases o <;> rfl

/-- In any entry-driven fold started from the empty draft, a recognized field
ends as the value of the last entry carrying that key in source order. -/
theorem fold_getField_getLast (key : String) (hk : recognizedKey key)
    (entry : Node → Option (String × String))
    (step : MessageDraft → Node → MessageDraft)
    (hstep : ∀ d x, step d x = (entry x).elim d (copyPair d))
    (l : List Node) :
    getField (l.foldl step {}) key =
      (keyValues key (l.filterMap entry)).getLast? := by
  rw [foldl_entries step entry hstep, foldl_copyPair_getLast key hk,
    getField_empty, elim_none_some]

/-! The claims. -/

/-- C1: for every source file and configuration, the output of `main` is
exactly the concatenation of the markup-element descriptors (built-in default
tag first, then each caller-supplied tag name in supplied order), then the
`defineMessages` descriptors, then the `formatMessage` descriptors.  Each
segment is in document order: within each tag name the matched elements are
exactly the document-order (pre-order) filter of the match test; each method
segment maps, declaration by declaration, over the visited variable
declarations, which form an ordered sublist of the pre-order listing; and
within a declaration's first argument the extractor visits the outermost
object literals, which also form an ordered sublist of the pre-order
listing. -/
theorem c1_extract_order (sf : Node) (opts : Options) :
    (main sf opts =
      (("FormattedMessage" :: opts.tagNames).map
        (fun t => getElementsMessages
          (findJsxOpeningLikeElementsWithName sf t))).flatten ++
      findMethodCallsWithName sf "defineMessages"
        extractMessagesForDefineMessages ++
      findMethodCallsWithName sf "formatMessage"
        extractMessagesForFormatMessage) ∧
    (∀ t : String, findJsxOpeningLikeElementsWithName sf t =
      (preorder sf).filter (jsxMatches t)) ∧
    (∀ (methodName : String) (ext : Node → List Message),
      findMethodCallsWithName sf methodName ext =
        ((forAllVarDecls sf).map (declMessages methodName ext)).flatten) ∧
    List.Sublist (forAllVarDecls sf) (preorder sf) ∧
    (∀ (node : Node) (ext : Node → List Message),
      extractMessagesForNode node ext =
        ((outerObjectLiterals node).map ext).flatten) ∧
    (∀ node : Node, List.Sublist (outerObjectLiterals node) (preorder node)) :=
  ⟨main_eq sf opts, fun t => findJsx_eq_filter t sf,
   fun methodName ext => findMethodCalls_eq sf methodName ext,
   forAllVarDecls_sublist sf,
   fun node ext => extractNode_eq_outer ext node,
   outerObjectLiterals_sublist⟩

/-- C2: the bulk-map extractor is a per-property `filterMap` over the outer
object's properties in source order: each property whose value is an object
literal yields exactly the descriptor `dmProp` gives it — one descriptor when
the accumulated partial draft is valid (contains `id` and `defaultMessage`),
zero otherwise — and sibling properties cannot affect each other. -/
theorem c2_defineMessages_per_property (props : List Node) :
    (extractMessagesForDefineMessages (.objectLiteralExpression props) =
      props.filterMap dmProp) ∧
    (∀ (nm : Node) (iprops : List Node),
      dmProp (.propertyAssignment nm (.objectLiteralExpression iprops)) =
        (iprops.foldl defineMessagesInner {}).toMessage) ∧
    (∀ d : MessageDraft, d.toMessage.isSome = isValidMessage d) :=
  ⟨extractDM_eq props, fun _ _ => rfl, toMessage_isSome⟩

/-- C3 counterexample: a matching `defineMessages` declaration that sits inside
the initializer of an enclosing variable declaration is not found: the file
`nestedDeclTree` contains the matching declaration `innerDefineMessagesDecl`
(whose call's first argument holds one valid descriptor), yet the
declaration-pattern matcher returns no descriptors. -/
theorem c3_counterexample :
    findMethodCallsWithName nestedDeclTree "defineMessages"
      extractMessagesForDefineMessages = [] ∧
    isMethodCall innerDefineMessagesDecl "defineMessages" = true ∧
    innerDefineMessagesDecl ∈ preorder nestedDeclTree ∧
    extractMessagesForNode innerDefineMessagesArg
      extractMessagesForDefineMessages =
      [{ id := "a.b", defaultMessage := "Hello", description := none }] := by
  refine ⟨?_, rfl, ?_, ?_⟩
  · rw [findMethodCalls_eval]
    rfl
  · apply mem_preorder_of_child
      (c := .variableDeclaration (.identifier "a")
        (some (.other [innerDefineMessagesDecl])))
      (by simp [nestedDeclTree, Node.children])
    apply mem_preorder_of_child (c := .other [innerDefineMessagesDecl])
      (by simp [Node.children])
    exact mem_preorder_of_child (by simp [Node.children])
      (self_mem_preorder innerDefineMessagesDecl)
  · rw [extractNode_eval]
    rfl

/-- C3 (amended): the declaration-pattern matcher returns, for every variable
declaration the traversal visits, the valid descriptors found inside the first
argument of a matching call; the traversal visits declarations at any nesting
depth (not limited to top level) but stops at the first variable declaration
on each path, so a matching declaration nested inside another variable
declaration is not visited. -/
theorem c3_decl_traversal (sf : Node) (methodName : String)
    (ext : Node → List Message) :
    (findMethodCallsWithName sf methodName ext =
      ((forAllVarDecls sf).map (declMessages methodName ext)).flatten) ∧
    (∀ d ∈ forAllVarDecls sf,
      isVariableDeclaration d = true ∧ d ∈ preorder sf) ∧
    (∀ n : Node, isVariableDeclaration n = true → forAllVarDecls n = [n]) ∧
    (∀ n : Node, isVariableDeclaration n = false →
      forAllVarDecls n = (n.children.map forAllVarDecls).flatten) := by
  refine ⟨findMethodCalls_eq sf methodName ext,
    fun d hd => forAllVarDecls_mem hd, fun n hn => ?_, fun n hn => ?_⟩
  · rw [forAllVarDecls_def, if_pos hn]
  · rw [forAllVarDecls_def, if_neg (by simp [hn])]

theorem c3_witness :
    forAllVarDecls innerDefineMessagesDecl = [innerDefineMessagesDecl] :=
  (c3_decl_traversal nestedDeclTree "defineMessages"
    extractMessagesForDefineMessages).2.2.1 innerDefineMessagesDecl rfl

/-- C4 counterexample: the claimed non-emptiness fails — the file `emptyIdTree`
holds `formatMessage({id: "", defaultMessage: "x"})` and extraction produces a
descriptor whose `id` is the empty string. -/
theorem c4_counterexample :
    main emptyIdTree ⟨[]⟩ =
      [{ id := "", defaultMessage := "x", description := none }] := by
  rw [main_eval]
  rfl

/-- C4 (amended): for every descriptor in the output of `main`, the `id` and
`defaultMessage` fields are strings taken verbatim from a string literal or
no-substitution template literal occurring in the source tree (they may be
empty, since the empty string is a legal literal). -/
theorem c4_fields_from_literals (sf : Node) (opts : Options) (m : Message)
    (h : m ∈ main sf opts) :
    m.id ∈ literalTexts sf ∧ m.defaultMessage ∈ literalTexts sf :=
  main_fields h

theorem c4_witness :
    "a.b" ∈ literalTexts okCallTree ∧ "Hello" ∈ literalTexts okCallTree :=
  c4_fields_from_literals okCallTree ⟨[]⟩
    { id := "a.b", defaultMessage := "Hello", description := none }
    (by rw [main_eval]; decide)

/-- C5: an attribute that contributes no entry — a spread attribute, an
attribute without a value, or an attribute whose embedded expression is not a
string literal or no-substitution template literal — is silently skipped
without invalidating the element; and an element whose entries include literal
`id` and `defaultMessage` values still yields exactly one descriptor whose
fields all come from the literal-valued recognized attributes. -/
theorem c5_attr_skipping (tag : Node) (xs ys : List Node) (a : Node)
    (ha : attrEntry a = none) :
    (getElementsMessages [.jsxOpeningLikeElement tag (xs ++ a :: ys)] =
      getElementsMessages [.jsxOpeningLikeElement tag (xs ++ ys)]) ∧
    (∀ s t : String,
      ("id", s) ∈ (xs ++ a :: ys).filterMap attrEntry →
      ("defaultMessage", t) ∈ (xs ++ a :: ys).filterMap attrEntry →
      ∃ m : Message,
        getElementsMessages [.jsxOpeningLikeElement tag (xs ++ a :: ys)] = [m] ∧
        ("id", m.id) ∈ (xs ++ a :: ys).filterMap attrEntry ∧
        ("defaultMessage", m.defaultMessage) ∈
          (xs ++ a :: ys).filterMap attrEntry ∧
        (∀ dsc : String, m.description = some dsc →
          ("description", dsc) ∈ (xs ++ a :: ys).filterMap attrEntry)) := by
  have hstep : ∀ d : MessageDraft, jsxAttrStep d a = d := fun d => by
    rw [jsxAttrStep_eq, ha]
    rfl
  constructor
  · exact getElements_skip hstep tag xs ys
  · intro s t hs ht
    have hfold : (xs ++ a :: ys).foldl jsxAttrStep {} =
        ((xs ++ a :: ys).filterMap attrEntry).foldl copyPair {} :=
      foldl_entries jsxAttrStep attrEntry jsxAttrStep_eq (xs ++ a :: ys) {}
    have hidSome :
        (((xs ++ a :: ys).foldl jsxAttrStep {}).id).isSome = true := by
      rw [hfold, ← getField_id]
      exact foldl_copyPair_isSome_of_mem "id" s (Or.inl rfl) _ {} hs
    have hdmSome :
        (((xs ++ a :: ys).foldl jsxAttrStep {}).defaultMessage).isSome = true := by
      rw [hfold, ← getField_defaultMessage]
      exact foldl_copyPair_isSome_of_mem "defaultMessage" t
        (Or.inr (Or.inl rfl)) _ {} ht
    have hvalid :
        (((xs ++ a :: ys).foldl jsxAttrStep {}).toMessage).isSome = true := by
      rw [toMessage_isSome, isValidMessage, hidSome, hdmSome]
      rfl
    obtain ⟨m, hm⟩ := Option.isSome_iff_exists.mp hvalid
    obtain ⟨hid, hdm2, hdesc⟩ := toMessage_fields hm
    refine ⟨m, ?_, ?_, ?_, ?_⟩
    · rw [getElements_singleton,
        show elementMessage (.jsxOpeningLikeElement tag (xs ++ a :: ys)) =
          ((xs ++ a :: ys).foldl jsxAttrStep {}).toMessage from rfl, hm]
      rfl
    · obtain ⟨x, hx, he⟩ := fold_field_from_entries attrEntry jsxAttrStep
        jsxAttrStep_eq "id" (Or.inl rfl) (by rw [getField_id]; exact hid)
      exact List.mem_filterMap.mpr ⟨x, hx, he⟩
    · obtain ⟨x, hx, he⟩ := fold_field_from_entries attrEntry jsxAttrStep
        jsxAttrStep_eq "defaultMessage" (Or.inr (Or.inl rfl))
        (by rw [getField_defaultMessage]; exact hdm2)
      exact List.mem_filterMap.mpr ⟨x, hx, he⟩
    · intro dsc hdsc
      obtain ⟨x, hx, he⟩ := fold_field_from_entries attrEntry jsxAttrStep
        jsxAttrStep_eq "description" (Or.inr (Or.inr rfl))
        (by rw [getField_description, hdesc, hdsc])
      exact List.mem_filterMap.mpr ⟨x, hx, he⟩

theorem c5_witness :
    getElementsMessages [.jsxOpeningLikeElement (.identifier "FormattedMessage")
      ([.jsxAttribute "id" (some (.stringLiteral "a")),
        .jsxAttribute "defaultMessage" (some (.stringLiteral "b"))] ++
        .jsxSpreadAttribute (.identifier "props") :: [])] =
    getElementsMessages [.jsxOpeningLikeElement (.identifier "FormattedMessage")
      ([.jsxAttribute "id" (some (.stringLiteral "a")),
        .jsxAttribute "defaultMessage" (some (.stringLiteral "b"))] ++ [])] :=
  (c5_attr_skipping (.identifier "FormattedMessage")
    [.jsxAttribute "id" (some (.stringLiteral "a")),
     .jsxAttribute "defaultMessage" (some (.stringLiteral "b"))]
    [] (.jsxSpreadAttribute (.identifier "props")) rfl).1

/-- C6: the `formatMessage` matcher only draws descriptors from variable
declarations visited by the traversal; when no visited declaration is a
matching `formatMessage` initializer — e.g. the call is passed directly to
another call, or stands as a bare expression — it contributes zero
descriptors. -/
theorem c6_resolution_requires_declaration (sf : Node)
    (ext : Node → List Message) :
    (findMethodCallsWithName sf "formatMessage" ext =
      ((forAllVarDecls sf).map (declMessages "formatMessage" ext)).flatten) ∧
    ((∀ d ∈ forAllVarDecls sf, isMethodCall d "formatMessage" = false) →
      findMethodCallsWithName sf "formatMessage" ext = []) := by
  refine ⟨findMethodCalls_eq sf _ ext, fun h => ?_⟩
  rw [findMethodCalls_eq, List.flatten_eq_nil_iff]
  intro l hl
  obtain ⟨d, hd, rfl⟩ := List.mem_map.mp hl
  unfold declMessages
  rw [if_neg (by simp [h d hd])]

theorem c6_witness :
    findMethodCallsWithName bareCallTree "formatMessage"
      extractMessagesForFormatMessage = [] :=
  (c6_resolution_requires_declaration bareCallTree
    extractMessagesForFormatMessage).2 (by
      intro d hd
      rw [forAllVarDecls_eval,
        show forAllVarDeclsF (sizeOf bareCallTree) bareCallTree = [] from rfl] at hd
      exact absurd hd (List.not_mem_nil d))

/-- C7: a property or attribute whose key is not one of the three recognized
field names is ignored by every matcher: copying under an unknown key leaves
the draft unchanged, each matcher's per-item step is the identity on such an
item, and inserting such an item anywhere leaves each matcher's output
unchanged (the descriptor type itself has no field beyond the three). -/
theorem c7_unknown_keys_ignored (key : String) (hk : ¬ recognizedKey key) :
    (∀ (d : MessageDraft) (v : String), copyIfMessageKey d key v = d) ∧
    (∀ (d : MessageDraft) (propInit : Node),
      formatMessageStep d (.propertyAssignment (.identifier key) propInit) = d) ∧
    (∀ (d : MessageDraft) (propInit : Node),
      defineMessagesInner d (.propertyAssignment (.identifier key) propInit) = d) ∧
    (∀ (d : MessageDraft) (attrInit : Option Node),
      jsxAttrStep d (.jsxAttribute key attrInit) = d) ∧
    (∀ (xs ys : List Node) (propInit : Node),
      extractMessagesForFormatMessage (.objectLiteralExpression
        (xs ++ .propertyAssignment (.identifier key) propInit :: ys)) =
      extractMessagesForFormatMessage (.objectLiteralExpression (xs ++ ys))) ∧
    (∀ (ps qs xs ys : List Node) (nm propInit : Node),
      extractMessagesForDefineMessages (.objectLiteralExpression
        (ps ++ .propertyAssignment nm (.objectLiteralExpression
          (xs ++ .propertyAssignment (.identifier key) propInit :: ys)) :: qs)) =
      extractMessagesForDefineMessages (.objectLiteralExpression
        (ps ++ .propertyAssignment nm
          (.objectLiteralExpression (xs ++ ys)) :: qs))) ∧
    (∀ (tag : Node) (xs ys : List Node) (attrInit : Option Node),
      getElementsMessages [.jsxOpeningLikeElement tag
        (xs ++ .jsxAttribute key attrInit :: ys)] =
      getElementsMessages [.jsxOpeningLikeElement tag (xs ++ ys)]) :=
  ⟨fun d v => copy_unknown d key v hk,
   formatMessageStep_unknown hk,
   defineMessagesInner_unknown hk,
   jsxAttrStep_unknown hk,
   fun xs ys propInit =>
     extractFM_skip (fun d => formatMessageStep_unknown hk d propInit) xs ys,
   fun ps qs xs ys nm propInit =>
     extractDM_skip (fun d => defineMessagesInner_unknown hk d propInit)
       ps qs xs ys nm,
   fun tag xs ys attrInit =>
     getElements_skip (fun d => jsxAttrStep_unknown hk d attrInit) tag xs ys⟩

theorem c7_witness :
    extractMessagesForFormatMessage (.objectLiteralExpression
      ([.propertyAssignment (.identifier "id") (.stringLiteral "a")] ++
        .propertyAssignment (.identifier "values") (.stringLiteral "x") ::
        [.propertyAssignment (.identifier "defaultMessage")
          (.stringLiteral "b")])) =
    extractMessagesForFormatMessage (.objectLiteralExpression
      ([.propertyAssignment (.identifier "id") (.stringLiteral "a")] ++
        [.propertyAssignment (.identifier "defaultMessage")
          (.stringLiteral "b")])) :=
  (c7_unknown_keys_ignored "values" (by simp [recognizedKey])).2.2.2.2.1
    [.propertyAssignment (.identifier "id") (.stringLiteral "a")]
    [.propertyAssignment (.identifier "defaultMessage") (.stringLiteral "b")]
    (.stringLiteral "x")

/-- C8: `main` is a total function — for every input it returns a (possibly
empty) descriptor list and no error is raised — and a tree holding none of the
recognized structures (no variable declaration, no JSX opening-like element),
in particular the empty tree, yields the empty list. -/
theorem c8_total_and_empty :
    (∀ (sf : Node) (opts : Options), ∃ ms : List Message, main sf opts = ms) ∧
    (∀ opts : Options, main (.other []) opts = []) ∧
    (∀ (sf : Node) (opts : Options),
      ((preorder sf).all (fun x =>
        !(isVariableDeclaration x || isJsxOpeningLikeElement x))) = true →
      main sf opts = []) := by
  refine ⟨fun sf opts => ⟨main sf opts, rfl⟩, fun opts => ?_, fun sf opts h => ?_⟩
  · apply main_nil
    intro x hx
    rw [preorder_def] at hx
    simp only [Node.children, List.map_nil, List.flatten_nil] at hx
    rcases List.mem_singleton.mp hx with rfl
    exact ⟨rfl, rfl⟩
  · apply main_nil
    intro x hx
    have hb := List.all_eq_true.mp h x hx
    simp only [Bool.not_eq_true', Bool.or_eq_false_iff] at hb
    exact hb

theorem c8_witness : main (.other [.stringLiteral "q"]) ⟨["Msg"]⟩ = [] :=
  c8_total_and_empty.2.2 (.other [.stringLiteral "q"]) ⟨["Msg"]⟩
    (by rw [preorder_eval]; rfl)

/-- C9: a no-substitution template literal as a top-level `formatMessage`
property value is skipped (only plain string literals contribute fields
there), while both the bulk-map inner step and the markup-attribute step
accept it and copy its text. -/
theorem c9_template_literal_asymmetry (s : String) :
    (∀ (nm : Node) (xs ys : List Node),
      extractMessagesForFormatMessage (.objectLiteralExpression
        (xs ++ .propertyAssignment nm
          (.noSubstitutionTemplateLiteral s) :: ys)) =
      extractMessagesForFormatMessage (.objectLiteralExpression (xs ++ ys))) ∧
    (∀ (d : MessageDraft) (k : String),
      defineMessagesInner d (.propertyAssignment (.identifier k)
        (.noSubstitutionTemplateLiteral s)) = copyIfMessageKey d k s) ∧
    (∀ (d : MessageDraft) (k : String),
      jsxAttrStep d (.jsxAttribute k (some (.jsxExpression
        (some (.noSubstitutionTemplateLiteral s))))) = copyIfMessageKey d k s) := by
  refine ⟨fun nm xs ys => ?_, fun d k => rfl, fun d k => rfl⟩
  apply extractFM_skip
  intro d
  show (if ((isIdentifier nm || isLiteralExpression nm) &&
      isStringLiteral (.noSubstitutionTemplateLiteral s)) = true then
    copyIfMessageKey d nm.text (Node.noSubstitutionTemplateLiteral s).text
    else d) = d
  rw [if_neg (by simp [isStringLiteral])]

/-- C10: for every candidate list in every matcher, a recognized field of the
accumulated draft is exactly the value of the last entry in source order that
carries that key (and is absent when no property or attribute carries it), so
when the same recognized field name occurs more than once with an accepted
literal value the last occurrence wins and earlier occurrences are
overwritten; a produced descriptor carries exactly the draft's fields. -/
theorem c10_last_occurrence_wins (key : String) (hk : recognizedKey key) :
    (∀ props : List Node,
      getField (props.foldl formatMessageStep {}) key =
        (keyValues key (props.filterMap fmEntry)).getLast?) ∧
    (∀ iprops : List Node,
      getField (iprops.foldl defineMessagesInner {}) key =
        (keyValues key (iprops.filterMap dmEntry)).getLast?) ∧
    (∀ attrs : List Node,
      getField (attrs.foldl jsxAttrStep {}) key =
        (keyValues key (attrs.filterMap attrEntry)).getLast?) ∧
    (∀ (d : MessageDraft) (m : Message), d.toMessage = some m →
      d.id = some m.id ∧ d.defaultMessage = some m.defaultMessage ∧
        d.description = m.description) :=
  ⟨fold_getField_getLast key hk fmEntry formatMessageStep formatMessageStep_eq,
   fold_getField_getLast key hk dmEntry defineMessagesInner defineMessagesInner_eq,
   fold_getField_getLast key hk attrEntry jsxAttrStep jsxAttrStep_eq,
   fun d m hm => toMessage_fields hm⟩

theorem c10_witness :
    getField (([Node.propertyAssignment (Node.identifier "id")
        (Node.stringLiteral "a"),
      Node.propertyAssignment (Node.identifier "id") (Node.stringLiteral "b"),
      Node.propertyAssignment (Node.identifier "defaultMessage")
        (Node.stringLiteral "c")]).foldl formatMessageStep {}) "id" =
      some "b" :=
  ((c10_last_occurrence_wins "id" (Or.inl rfl)).1
    [Node.propertyAssignment (Node.identifier "id") (Node.stringLiteral "a"),
     Node.propertyAssignment (Node.identifier "id") (Node.stringLiteral "b"),
     Node.propertyAssignment (Node.identifier "defaultMessage")
       (Node.stringLiteral "c")]).trans (by rfl)

end TsReactIntl
